import Mathlib

/-
Verification development for the `arrayfire_js` machine-learning example
(`src/examples/es6/machine-learning/ann.js`).

The example trains a fully connected feed-forward neural network using
mini-batch gradient descent on top of the ArrayFire binding.  The binding
itself (element-wise arithmetic, matrix multiply, join, slicing, random
initialization, ...) is not under `src/`; those operations are modelled from
the specification's backend contract (spec section 6) and are marked
`Modelled from the spec:` below.  Machine floating point is modelled by exact
rationals, and the two transcendental scalar functions used by the example
(the logistic sigmoid and the square root of the error metric) are kept
abstract as parameters of type rational-to-rational, since only the
element-wise / order-of-operation structure is at stake in the claims.

Mutation in the JavaScript source (`this.signal[i].set`, `addAssign`,
`err.set`) is modelled by explicit state passing: the `ANN` structure mirrors
the fields of the `ANN` class and every method returns the updated structure.
The memory-scoping construct `af.scope` only reclaims temporaries and has no
value-level semantics, so it is not modelled.

Representation convention: an `AFArray` stores its two dimensions and an
entry function; every constructed array is canonical, meaning its entry
function returns 0 outside the stored dimensions (the guard in `afMk`).
This canonicalization only fixes values the real array does not have, so all
claims are stated on in-range entries.
-/

set_option autoImplicit false

/-- A two-dimensional ArrayFire array over exact rationals: row count, column
count and the entry function. -/
structure AFArray where
  rows : ℕ
  cols : ℕ
  entry : ℕ → ℕ → ℚ

/-- Canonical array builder: entries outside the stored dimensions are 0. -/
def afMk (r c : ℕ) (f : ℕ → ℕ → ℚ) : AFArray :=
  ⟨r, c, fun i j => if i < r ∧ j < c then f i j else 0⟩

/-- The empty array produced by `new af.AFArray()` (a placeholder handle). -/
def emptyAF : AFArray := ⟨0, 0, fun _ _ => 0⟩

/-- Total number of elements, `arr.elements()`. -/
def AFArray.elements (a : AFArray) : ℕ := a.rows * a.cols

/-- Modelled from the spec: backend `constant(value, rows, dtype)` building a
ones-column (spec section 6); a `rows` by 1 array filled with `v`. -/
def afConstantCol (v : ℚ) (n : ℕ) : AFArray :=
  afMk n 1 (fun _ _ => v)

/-- Modelled from the spec: backend `concat(axis, A, B)` for axis 1
(spec section 6), i.e. `af.join(1, A, B)`: horizontal concatenation, the
columns of `A` followed by the columns of `B`. -/
def afJoin1 (a b : AFArray) : AFArray :=
  afMk a.rows (a.cols + b.cols)
    (fun i j => if j < a.cols then a.entry i j else b.entry i (j - a.cols))

/-- Modelled from the spec: element-wise addition (spec section 6); also the
value semantics of the in-place `addAssign`. -/
def afAdd (a b : AFArray) : AFArray :=
  afMk a.rows a.cols (fun i j => a.entry i j + b.entry i j)

/-- Modelled from the spec: element-wise subtraction `a.sub(b)`. -/
def afSub (a b : AFArray) : AFArray :=
  afMk a.rows a.cols (fun i j => a.entry i j - b.entry i j)

/-- Modelled from the spec: element-wise multiplication `a.mul(b)`. -/
def afMulEW (a b : AFArray) : AFArray :=
  afMk a.rows a.cols (fun i j => a.entry i j * b.entry i j)

/-- Modelled from the spec: reversed scalar subtraction `a.rhsSub(s)`, the
scalar on the left: `s - a` element-wise (spec section 4.3 writes the
derivative as `(1 - out) * out`). -/
def afRhsSub (a : AFArray) (s : ℚ) : AFArray :=
  afMk a.rows a.cols (fun i j => s - a.entry i j)

/-- Modelled from the spec: scalar broadcast multiplication `a.mul(s)`. -/
def afMulS (a : AFArray) (s : ℚ) : AFArray :=
  afMk a.rows a.cols (fun i j => a.entry i j * s)

/-- Modelled from the spec: scalar broadcast subtraction `a.sub(s)`. -/
def afSubS (a : AFArray) (s : ℚ) : AFArray :=
  afMk a.rows a.cols (fun i j => a.entry i j - s)

/-- Modelled from the spec: scalar broadcast division `a.div(s)`. -/
def afDivS (a : AFArray) (s : ℚ) : AFArray :=
  afMk a.rows a.cols (fun i j => a.entry i j / s)

/-- Modelled from the spec: element-wise negation `a.neg()`. -/
def afNeg (a : AFArray) : AFArray :=
  afMk a.rows a.cols (fun i j => - a.entry i j)

/-- Modelled from the spec: matrix product `af.matMul(a, b)`
(spec section 6). -/
def afMatMul (a b : AFArray) : AFArray :=
  afMk a.rows b.cols
    (fun i j => ∑ k ∈ Finset.range a.cols, a.entry i k * b.entry k j)

/-- Modelled from the spec: `af.transpose(a)` (spec section 6). -/
def afTranspose (a : AFArray) : AFArray :=
  afMk a.cols a.rows (fun i j => a.entry j i)

/-- Modelled from the spec: `af.matMulTT(a, b)`.  The binding is not under
`src/`; spec section 6 specifies the variant as "a transposed-second-operand
variant matmul(A, Bᵗ)", which is what is used here.  (ArrayFire's usual `TT`
naming would transpose both operands instead; nothing under `src/` decides
this, so the spec's contract is followed.) -/
def afMatMulTT (a b : AFArray) : AFArray :=
  afMatMul a (afTranspose b)

/-- Modelled from the spec: element-wise application of the activation
`af.sigmoid`; the scalar sigmoid itself stays abstract. -/
def afSigmoid (sigma : ℚ → ℚ) (a : AFArray) : AFArray :=
  afMk a.rows a.cols (fun i j => sigma (a.entry i j))

/-- Modelled from the spec: `af.sum(a)` over all elements (spec section 6). -/
def afSum (a : AFArray) : ℚ :=
  ∑ i ∈ Finset.range a.rows, ∑ j ∈ Finset.range a.cols, a.entry i j

/-- Modelled from the spec: column-range slicing
`a.at(af.span, new Seq(lo, hi))` keeping columns `lo..hi` inclusive
(spec section 6). -/
def afColSlice (a : AFArray) (lo hi : ℕ) : AFArray :=
  afMk a.rows (hi + 1 - lo) (fun i j => a.entry i (lo + j))

/-- Modelled from the spec: row-range slicing
`a.at(new Seq(lo, hi), af.span)` keeping rows `lo..hi` inclusive
(spec section 6). -/
def afRowSlice (a : AFArray) (lo hi : ℕ) : AFArray :=
  afMk (hi + 1 - lo) a.cols (fun i j => a.entry (lo + i) j)

/-- The network state, mirroring the fields of the `ANN` class:
`numLayers`, the per-layer activation buffers `signal` and the inter-layer
weight matrices `weights`. -/
structure ANN where
  numLayers : ℕ
  signal : List AFArray
  weights : List AFArray

namespace ANN

/-- The effective initialization range of the constructor: the source computes
`range = range || 0.05`, so an absent or zero (falsy) argument falls back to
the default 0.05. -/
def effectiveRange (rangeOpt : Option ℚ) : ℚ :=
  match rangeOpt with
  | none => 1 / 20
  | some r => if r = 0 then 1 / 20 else r

/-- The `ANN` constructor.  For each layer an empty signal placeholder is
pushed; for each `i` below `numLayers - 1` the weight
`randu(layers[i] + 1, layers[i + 1]).mul(range).sub(range / 2)` is pushed.
The backend `randu` is not under `src/` and is passed in as an arbitrary
draw function (spec section 6 `uniformRandom`). -/
def construct (randu : ℕ → ℕ → AFArray) (layers : List ℕ)
    (rangeOpt : Option ℚ) : ANN :=
  let range := effectiveRange rangeOpt
  { numLayers := layers.length
    signal := List.replicate layers.length emptyAF
    weights := (List.range (layers.length - 1)).map (fun i =>
      afSubS (afMulS (randu (layers.getD i 0 + 1) (layers.getD (i + 1) 0))
        range) (range / 2)) }

/-- The method `deriv(out)`: `out.rhsSub(1).mul(out)`, the sigmoid derivative
computed from the stored activation. -/
def deriv (out : AFArray) : AFArray :=
  afMulEW (afRhsSub out 1) out

/-- The method `addBias(input)`:
`af.join(1, af.constant(1, input.dims(0), f32), input)`. -/
def addBias (input : AFArray) : AFArray :=
  afJoin1 (afConstantCol 1 input.rows) input

/-- The method `_calculateError(out, pred)`:
`Math.sqrt(af.sum(sq)) / sq.elements()` with `sq = dif.mul(dif)` and
`dif = out.sub(pred)`.  `Math.sqrt` is kept abstract as `sqrtFn`. -/
def calculateError (sqrtFn : ℚ → ℚ) (out pred : AFArray) : ℚ :=
  let dif := afSub out pred
  let sq := afMulEW dif dif
  sqrtFn (afSum sq) / (sq.elements : ℚ)

/-- The body of `forwardPropagate`'s layer loop after `k` iterations: the
iteration with index `i = k` overwrites `signal[i + 1]` with
`sigmoid(matMul(addBias(signal[i]), weights[i]))`. -/
def fpLoop (sigma : ℚ → ℚ) (w : List AFArray) (s0 : List AFArray) :
    ℕ → List AFArray
  | 0 => s0
  | k + 1 =>
    let s := fpLoop sigma w s0 k
    s.set (k + 1)
      (afSigmoid sigma (afMatMul (addBias (s.getD k emptyAF))
        (w.getD k emptyAF)))

/-- The method `forwardPropagate(input)`: rebind `signal[0]` to the input,
then run the layer loop for `numLayers - 1` iterations. -/
def forwardPropagate (sigma : ℚ → ℚ) (net : ANN) (input : AFArray) : ANN :=
  { net with
    signal := fpLoop sigma net.weights (net.signal.set 0 input)
      (net.numLayers - 1) }

/-- The state of `backPropagate`'s downward layer loop after `t` iterations:
the local `outVec`, the local `err` and the (mutated in place) weight list.
The iteration performed at step `t + 1` handles layer index
`i = L - 2 - t`, exactly the body of the source loop: build `delta` and
`grad`, `addAssign` the transposed gradient onto `weights[i]`, rebind
`outVec` to `signal[i]`, recompute `err` from the updated `weights[i]` and
drop its bias column. -/
def bpLoop (L : ℕ) (sig : ℕ → AFArray) (w0 : List AFArray) (target : AFArray)
    (alpha m : ℚ) : ℕ → AFArray × AFArray × List AFArray
  | 0 => (sig (L - 1), afSub (sig (L - 1)) target, w0)
  | t + 1 =>
    let st := bpLoop L sig w0 target alpha m t
    let i := L - 2 - t
    let inVec := addBias (sig i)
    let delta := afTranspose (afMulEW (deriv st.1) st.2.1)
    let grad := afDivS (afNeg (afMulS (afMatMul delta inVec) alpha)) m
    let ws := st.2.2.set i (afAdd (st.2.2.getD i emptyAF) (afTranspose grad))
    let outVec := sig i
    let err := afMatMulTT delta (ws.getD i emptyAF)
    let err2 := afColSlice err 1 outVec.cols
    (outVec, err2, ws)

/-- The method `backPropagate(target, alpha)`: run the downward layer loop
`numLayers - 1` times starting from `outVec = signal[numLayers - 1]`,
`err = outVec.sub(target)`, `m = target.dims(0)`; only the weights are
mutated. -/
def backPropagate (net : ANN) (target : AFArray) (alpha : ℚ) : ANN :=
  { net with
    weights := (bpLoop net.numLayers (fun i => net.signal.getD i emptyAF)
      net.weights target alpha ((target.rows : ℚ)) (net.numLayers - 1)).2.2 }

/-- The method `predict(input)`: forward propagate and return the updated
network together with a copy of `signal[numLayers - 1]` (copying is identity
in this value-level model). -/
def predict (sigma : ℚ → ℚ) (net : ANN) (input : AFArray) : ANN × AFArray :=
  let net1 := forwardPropagate sigma net input
  (net1, net1.signal.getD (net1.numLayers - 1) emptyAF)

end ANN

/-- Options of `ANN.train`, mirroring the `options` object. -/
structure TrainOptions where
  batchSize : ℕ
  maxEpochs : ℕ
  alpha : ℚ
  maxError : ℚ

/-- The quantity `numBatches = numSamples / options.batchSize` of `train`:
an exact (possibly fractional) rational quotient, as in JavaScript number
division. -/
def trainNumBatches (numSamples batchSize : ℕ) : ℚ :=
  (numSamples : ℚ) / (batchSize : ℚ)

/-- The number of iterations of `train`'s batch loop
`for (j = 0; j < numBatches - 1; j++)`: the number of naturals strictly below
`numBatches - 1`.  The lemma `trainBatchCount_iff` below proves this count
matches the loop guard. -/
def trainBatchCount (numSamples batchSize : ℕ) : ℕ :=
  (⌈trainNumBatches numSamples batchSize - 1⌉).toNat

/-- The start row `(numBatches - 1) * options.batchSize` of `train`'s
validation slice, as the exact rational the source computes. -/
def trainValStart (numSamples batchSize : ℕ) : ℚ :=
  (trainNumBatches numSamples batchSize - 1) * (batchSize : ℚ)

namespace ANN

/-- The body of one epoch of `train`: run the batch loop
(`forwardPropagate` then `backPropagate` on rows
`j * batchSize .. j * batchSize + batchSize - 1` for each `j` with
`j < numBatches - 1`), then predict on the validation slice
(rows `(numBatches - 1) * batchSize .. numSamples - 1`) and compute the
validation error.  The validation start index is a nonnegative integer in
every regime proved about below, so it is read back into a natural number. -/
def trainEpoch (sqrtFn sigma : ℚ → ℚ) (net : ANN) (input target : AFArray)
    (opts : TrainOptions) : ANN × ℚ :=
  let n := input.rows
  let net1 := (List.range (trainBatchCount n opts.batchSize)).foldl
    (fun net j =>
      let startPos := j * opts.batchSize
      let endPos := startPos + opts.batchSize - 1
      let x := afRowSlice input startPos endPos
      let y := afRowSlice target startPos endPos
      backPropagate (forwardPropagate sigma net x) y opts.alpha) net
  let s := (⌊trainValStart n opts.batchSize⌋).toNat
  let p := predict sigma net1 (afRowSlice input s (n - 1))
  (p.1, calculateError sqrtFn p.2 (afRowSlice target s (n - 1)))

/-- The epoch loop of `train` with its convergence break: run an epoch,
return early when the validation error drops below `maxError`, otherwise
continue with the remaining epoch budget. -/
def trainLoop (sqrtFn sigma : ℚ → ℚ) (input target : AFArray)
    (opts : TrainOptions) : ℕ → ANN → ℚ → ANN × ℚ
  | 0, net, err => (net, err)
  | k + 1, net, _ =>
    let r := trainEpoch sqrtFn sigma net input target opts
    if r.2 < opts.maxError then r
    else trainLoop sqrtFn sigma input target opts k r.1 r.2

/-- The method `train(input, target, options)`: run up to `maxEpochs` epochs
with the convergence break and return the final network and error. -/
def train (sqrtFn sigma : ℚ → ℚ) (net : ANN) (input target : AFArray)
    (opts : TrainOptions) : ANN × ℚ :=
  trainLoop sqrtFn sigma input target opts opts.maxEpochs net 0

end ANN

/-
Claim-side definitions.  These restate, as closed recurrences in the spec's
own vocabulary, the values the imperative loops of `forwardPropagate` and
`backPropagate` thread through their mutable state; the theorems below prove
the loops compute exactly these values.
-/

/-- The forward recurrence of the spec (section 4.4): `fpSpec 0` is the input
batch and `fpSpec (i + 1) = sigmoid(matMul(addBias(fpSpec i), weights[i]))`.
`fpSpec (L - 1)` is the network's output batch. -/
def fpSpec (sigma : ℚ → ℚ) (w : List AFArray) (input : AFArray) :
    ℕ → AFArray
  | 0 => input
  | i + 1 =>
    afSigmoid sigma (afMatMul (ANN.addBias (fpSpec sigma w input i))
      (w.getD i emptyAF))

/-- The backward error recurrence of the spec (section 4.5): the value of
`err` entering iteration number `t` of the downward layer loop (iteration
number `t` handles layer index `L - 2 - t`).  `bpErrSpec 0` is the output
error `signal[L - 1] - target`; each later error is the previous delta
multiplied against the transposed, already-updated weight, with the bias
column dropped. -/
def bpErrSpec (L : ℕ) (sig : ℕ → AFArray) (w0 : List AFArray)
    (target : AFArray) (alpha m : ℚ) : ℕ → AFArray
  | 0 => afSub (sig (L - 1)) target
  | t + 1 =>
    let i := L - 2 - t
    let delta := afTranspose (afMulEW (ANN.deriv (sig (L - 1 - t)))
      (bpErrSpec L sig w0 target alpha m t))
    let grad := afDivS (afNeg (afMulS (afMatMul delta (ANN.addBias (sig i)))
      alpha)) m
    afColSlice (afMatMulTT delta
      (afAdd (w0.getD i emptyAF) (afTranspose grad))) 1 (sig i).cols

/-- The delta of iteration number `t` of the downward layer loop (handling
layer index `L - 2 - t`): `transpose(deriv(outVec) * err)` where `outVec` is
`signal[L - 1 - t]`, the output activation of the layer being updated. -/
def bpDeltaSpec (L : ℕ) (sig : ℕ → AFArray) (w0 : List AFArray)
    (target : AFArray) (alpha m : ℚ) (t : ℕ) : AFArray :=
  afTranspose (afMulEW (ANN.deriv (sig (L - 1 - t)))
    (bpErrSpec L sig w0 target alpha m t))

/-- The (untransposed) weight gradient of iteration number `t` of the
downward layer loop: `matMul(delta, addBias(signal[L - 2 - t]))` scaled by
`alpha`, negated and divided by the batch size `m`. -/
def bpGradSpec (L : ℕ) (sig : ℕ → AFArray) (w0 : List AFArray)
    (target : AFArray) (alpha m : ℚ) (t : ℕ) : AFArray :=
  afDivS (afNeg (afMulS (afMatMul (bpDeltaSpec L sig w0 target alpha m t)
    (ANN.addBias (sig (L - 2 - t)))) alpha)) m

theorem bpErrSpec_succ (L : ℕ) (sig : ℕ → AFArray) (w0 : List AFArray)
    (target : AFArray) (alpha m : ℚ) (t : ℕ) :
    bpErrSpec L sig w0 target alpha m (t + 1) =
      afColSlice (afMatMulTT (bpDeltaSpec L sig w0 target alpha m t)
        (afAdd (w0.getD (L - 2 - t) emptyAF)
          (afTranspose (bpGradSpec L sig w0 target alpha m t))))
        1 (sig (L - 2 - t)).cols := rfl

/- List access helpers. -/

theorem listGetD_set_self {α : Type} (l : List α) (n : ℕ) (a d : α)
    (h : n < l.length) : (l.set n a).getD n d = a := by
  simp [List.getD_eq_getElem?_getD, List.getElem?_set_self, h]

theorem listGetD_set_ne {α : Type} (l : List α) (m n : ℕ) (a d : α)
    (h : m ≠ n) : (l.set n a).getD m d = l.getD m d := by
  simp [List.getD_eq_getElem?_getD, List.getElem?_set_ne (Ne.symm h)]

/-- Field-wise extensionality for `AFArray`. -/
theorem afEq {a b : AFArray} (hr : a.rows = b.rows) (hc : a.cols = b.cols)
    (he : a.entry = b.entry) : a = b := by
  cases a; cases b; simp_all

/- Characterization of the forward loop. -/

theorem fpLoop_length (sigma : ℚ → ℚ) (w s0 : List AFArray) :
    ∀ k, (ANN.fpLoop sigma w s0 k).length = s0.length := by
  intro k
  induction k with
  | zero => rfl
  | succ k ih => simp [ANN.fpLoop, ih]

theorem fpLoop_getD (sigma : ℚ → ℚ) (w s0 : List AFArray) (input : AFArray)
    (h0 : s0.getD 0 emptyAF = input) :
    ∀ k, k < s0.length → ∀ j, j ≤ k →
      (ANN.fpLoop sigma w s0 k).getD j emptyAF = fpSpec sigma w input j := by
  intro k
  induction k with
  | zero =>
    intro _ j hj
    have hj0 : j = 0 := Nat.le_zero.mp hj
    subst hj0
    exact h0
  | succ k ih =>
    intro hk j hj
    have hk' : k < s0.length := Nat.lt_of_succ_lt hk
    rcases Nat.lt_or_ge j (k + 1) with hlt | hge
    · have hj' : j ≤ k := Nat.lt_succ_iff.mp hlt
      have hne : j ≠ k + 1 := Nat.ne_of_lt hlt
      simp only [ANN.fpLoop]
      rw [listGetD_set_ne _ _ _ _ _ hne]
      exact ih hk' j hj'
    · have hj1 : j = k + 1 := Nat.le_antisymm hj hge
      subst hj1
      simp only [ANN.fpLoop]
      rw [listGetD_set_self]
      · rw [ih hk' k (Nat.le_refl k)]
        rfl
      · rw [fpLoop_length]
        exact hk

/- Characterization of the backward loop: after `t` iterations the local
`outVec` is `signal[L - 1 - t]`, the local `err` is `bpErrSpec t`, and the
weight at index `j` has been updated (exactly once, by adding the transposed
gradient) precisely when its layer has already been handled. -/

theorem bpLoop_spec (L : ℕ) (sig : ℕ → AFArray) (w0 : List AFArray)
    (target : AFArray) (alpha m : ℚ) (hw : w0.length = L - 1) :
    ∀ t, t ≤ L - 1 →
      (ANN.bpLoop L sig w0 target alpha m t).1 = sig (L - 1 - t)
      ∧ (ANN.bpLoop L sig w0 target alpha m t).2.1 =
          bpErrSpec L sig w0 target alpha m t
      ∧ (ANN.bpLoop L sig w0 target alpha m t).2.2.length = L - 1
      ∧ ∀ j, (ANN.bpLoop L sig w0 target alpha m t).2.2.getD j emptyAF =
          if L - 1 - t ≤ j ∧ j < L - 1 then
            afAdd (w0.getD j emptyAF)
              (afTranspose (bpGradSpec L sig w0 target alpha m (L - 2 - j)))
          else w0.getD j emptyAF := by
  intro t
  induction t with
  | zero =>
    intro _
    refine ⟨rfl, rfl, hw, ?_⟩
    intro j
    rw [if_neg (by omega)]
    rfl
  | succ t ih =>
    intro ht
    have hL : 2 ≤ L := by omega
    have ht' : t ≤ L - 1 := by omega
    obtain ⟨h1, h2, h3, h4⟩ := ih ht'
    have hidx : L - 1 - (t + 1) = L - 2 - t := by omega
    have hprev : (ANN.bpLoop L sig w0 target alpha m t).2.2.getD (L - 2 - t)
        emptyAF = w0.getD (L - 2 - t) emptyAF := by
      rw [h4 (L - 2 - t), if_neg (by omega)]
    refine ⟨?_, ?_, ?_, ?_⟩
    · simp only [ANN.bpLoop]
      rw [hidx]
    · simp only [ANN.bpLoop]
      rw [h1, h2, hprev, listGetD_set_self _ _ _ _ (by rw [h3]; omega),
        bpErrSpec_succ]
      rfl
    · simp only [ANN.bpLoop]
      rw [List.length_set, h3]
    · intro j
      simp only [ANN.bpLoop]
      rcases Nat.decEq j (L - 2 - t) with hne | heq
      · rw [listGetD_set_ne _ _ _ _ _ hne, h4 j]
        by_cases hcond : L - 1 - t ≤ j ∧ j < L - 1
        · rw [if_pos hcond, if_pos (by omega)]
        · rw [if_neg hcond, if_neg (by omega)]
      · subst heq
        rw [listGetD_set_self _ _ _ _ (by rw [h3]; omega), hprev,
          if_pos (by omega), h1, h2]
        have harith : L - 2 - (L - 2 - t) = t := by omega
        rw [harith]
        rfl

/- Simple preservation facts. -/

theorem fp_weights (sigma : ℚ → ℚ) (net : ANN) (input : AFArray) :
    (ANN.forwardPropagate sigma net input).weights = net.weights := rfl

theorem fp_numLayers (sigma : ℚ → ℚ) (net : ANN) (input : AFArray) :
    (ANN.forwardPropagate sigma net input).numLayers = net.numLayers := rfl

theorem fp_signal_length (sigma : ℚ → ℚ) (net : ANN) (input : AFArray) :
    (ANN.forwardPropagate sigma net input).signal.length =
      net.signal.length := by
  simp [ANN.forwardPropagate, fpLoop_length]

theorem bp_signal (net : ANN) (target : AFArray) (alpha : ℚ) :
    (ANN.backPropagate net target alpha).signal = net.signal := rfl

theorem bp_numLayers (net : ANN) (target : AFArray) (alpha : ℚ) :
    (ANN.backPropagate net target alpha).numLayers = net.numLayers := rfl

/-- The signals after `forwardPropagate` follow the spec recurrence `fpSpec`
at every layer index below `numLayers`. -/
theorem fp_signal_getD (sigma : ℚ → ℚ) (net : ANN) (input : AFArray)
    (hlen : net.signal.length = net.numLayers) (hL : 1 ≤ net.numLayers) :
    ∀ j, j < net.numLayers →
      (ANN.forwardPropagate sigma net input).signal.getD j emptyAF =
        fpSpec sigma net.weights input j := by
  intro j hj
  unfold ANN.forwardPropagate
  apply fpLoop_getD
  · exact listGetD_set_self _ _ _ _ (by omega)
  · rw [List.length_set]
    omega
  · omega

/-- The weight list produced by `backPropagate`: every weight below
`numLayers - 1` receives exactly one additive update, by the transposed
gradient of its own layer iteration. -/
theorem backPropagate_spec (net : ANN) (target : AFArray) (alpha : ℚ)
    (hw : net.weights.length = net.numLayers - 1) :
    (ANN.backPropagate net target alpha).weights.length = net.numLayers - 1
    ∧ ∀ i, i < net.numLayers - 1 →
      (ANN.backPropagate net target alpha).weights.getD i emptyAF =
        afAdd (net.weights.getD i emptyAF)
          (afTranspose (bpGradSpec net.numLayers
            (fun k => net.signal.getD k emptyAF) net.weights target alpha
            ((target.rows : ℚ)) (net.numLayers - 2 - i))) := by
  obtain ⟨-, -, h3, h4⟩ := bpLoop_spec net.numLayers
    (fun k => net.signal.getD k emptyAF) net.weights target alpha
    ((target.rows : ℚ)) hw (net.numLayers - 1) (Nat.le_refl _)
  refine ⟨h3, ?_⟩
  intro i hi
  have := h4 i
  rw [if_pos (by omega)] at this
  exact this

/-- The backward loop only looks at signal indices below `L`, so two signal
environments agreeing there produce identical loop states. -/
theorem bpLoop_congr (L : ℕ) (sig1 sig2 : ℕ → AFArray) (w0 : List AFArray)
    (target : AFArray) (alpha m : ℚ) (hL : 1 ≤ L)
    (h : ∀ j, j < L → sig1 j = sig2 j) :
    ∀ t, ANN.bpLoop L sig1 w0 target alpha m t =
      ANN.bpLoop L sig2 w0 target alpha m t := by
  intro t
  induction t with
  | zero =>
    simp only [ANN.bpLoop]
    rw [h (L - 1) (by omega)]
  | succ t ih =>
    simp only [ANN.bpLoop]
    rw [ih, h (L - 2 - t) (by omega)]

/-- Two networks with the same weights and layer count (but possibly
different stale signal buffers) end up with the same weights after a
forward-backward pass on the same batch. -/
theorem bp_fp_weights_congr (sigma : ℚ → ℚ) (alpha : ℚ) (n1 n2 : ANN)
    (x y : AFArray) (hW : n1.weights = n2.weights)
    (hL : n1.numLayers = n2.numLayers)
    (hs1 : n1.signal.length = n1.numLayers)
    (hs2 : n2.signal.length = n2.numLayers) (h1 : 1 ≤ n1.numLayers) :
    (ANN.backPropagate (ANN.forwardPropagate sigma n1 x) y alpha).weights =
      (ANN.backPropagate (ANN.forwardPropagate sigma n2 x) y alpha).weights
      := by
  have hfp1 := fp_signal_getD sigma n1 x hs1 h1
  have hfp2 := fp_signal_getD sigma n2 x hs2 (by omega)
  unfold ANN.backPropagate
  simp only [fp_weights, fp_numLayers]
  rw [hW, hL]
  have hcongr := bpLoop_congr n2.numLayers
    (fun i => (ANN.forwardPropagate sigma n1 x).signal.getD i emptyAF)
    (fun i => (ANN.forwardPropagate sigma n2 x).signal.getD i emptyAF)
    n2.weights y alpha ((y.rows : ℚ)) (by omega) ?_ (n2.numLayers - 1)
  · rw [hcongr]
  · intro j hj
    dsimp only
    rw [hfp1 j (by omega), hfp2 j (by omega), hW]

/-- Row slices over a range on which two arrays agree (with equal column
count) are equal. -/
theorem afRowSlice_congr (a b : AFArray) (lo hi : ℕ) (hc : a.cols = b.cols)
    (h : ∀ r, lo ≤ r → r ≤ hi → ∀ c, a.entry r c = b.entry r c) :
    afRowSlice a lo hi = afRowSlice b lo hi := by
  refine afEq rfl hc ?_
  funext i j
  show (if i < hi + 1 - lo ∧ j < a.cols then a.entry (lo + i) j else 0) =
    (if i < hi + 1 - lo ∧ j < b.cols then b.entry (lo + i) j else 0)
  by_cases hij : i < hi + 1 - lo ∧ j < b.cols
  · rw [if_pos (by rw [hc]; exact hij), if_pos hij]
    exact h (lo + i) (Nat.le_add_right _ _) (by omega) j
  · rw [if_neg (by rw [hc]; exact hij), if_neg hij]

/-- Agreement invariant carried across epochs for the batch-split claim: the
two runs hold identical weights and layer counts, and both have well-formed
signal buffers. -/
def netAgree (n1 n2 : ANN) : Prop :=
  n1.weights = n2.weights ∧ n1.numLayers = n2.numLayers ∧
  n1.signal.length = n1.numLayers ∧ n2.signal.length = n2.numLayers ∧
  1 ≤ n1.numLayers

theorem batchStep_agree (sigma : ℚ → ℚ) (alpha : ℚ) (n1 n2 : ANN)
    (x y : AFArray) (h : netAgree n1 n2) :
    netAgree (ANN.backPropagate (ANN.forwardPropagate sigma n1 x) y alpha)
      (ANN.backPropagate (ANN.forwardPropagate sigma n2 x) y alpha) := by
  obtain ⟨hW, hL, hs1, hs2, h1⟩ := h
  refine ⟨bp_fp_weights_congr sigma alpha n1 n2 x y hW hL hs1 hs2 h1, ?_, ?_,
    ?_, ?_⟩
  · simp only [bp_numLayers, fp_numLayers]
    exact hL
  · simp only [bp_signal, bp_numLayers, fp_numLayers, fp_signal_length]
    exact hs1
  · simp only [bp_signal, bp_numLayers, fp_numLayers, fp_signal_length]
    exact hs2
  · simp only [bp_numLayers, fp_numLayers]
    exact h1

theorem predict_agree (sigma : ℚ → ℚ) (n1 n2 : ANN) (a b : AFArray)
    (h : netAgree n1 n2) :
    netAgree (ANN.predict sigma n1 a).1 (ANN.predict sigma n2 b).1 := by
  obtain ⟨hW, hL, hs1, hs2, h1⟩ := h
  refine ⟨?_, ?_, ?_, ?_, ?_⟩
  · simp only [ANN.predict, fp_weights]
    exact hW
  · simp only [ANN.predict, fp_numLayers]
    exact hL
  · simp only [ANN.predict, fp_numLayers, fp_signal_length]
    exact hs1
  · simp only [ANN.predict, fp_numLayers, fp_signal_length]
    exact hs2
  · simp only [ANN.predict, fp_numLayers]
    exact h1

/- Counting facts about the training loop bounds. -/

/-- The rendering of `train`'s batch loop guard is faithful: a natural `j` is
a loop index exactly when `j < numBatches - 1` holds over the rationals. -/
theorem trainBatchCount_iff (n b j : ℕ) :
    j < trainBatchCount n b ↔ (j : ℚ) < trainNumBatches n b - 1 := by
  unfold trainBatchCount
  rw [Int.lt_toNat, Int.lt_ceil]
  norm_cast

/-- With a positive batch size not exceeding the sample count, the validation
start row `(numBatches - 1) * batchSize` is exactly `numSamples -
batchSize`. -/
theorem trainValStart_eq (n b : ℕ) (hb : 0 < b) :
    trainValStart n b = (n : ℚ) - (b : ℚ) := by
  unfold trainValStart trainNumBatches
  have hbq : (b : ℚ) ≠ 0 := Nat.cast_ne_zero.mpr (by omega)
  rw [sub_mul, one_mul, div_mul_cancel₀ _ hbq]

/-- With `batchSize ≥ numSamples` the batch loop body never runs. -/
theorem trainBatchCount_zero (n b : ℕ) (hb : 0 < b) (hnb : n ≤ b) :
    trainBatchCount n b = 0 := by
  unfold trainBatchCount trainNumBatches
  rw [Int.toNat_eq_zero, Int.ceil_le]
  push_cast
  rw [sub_nonpos, div_le_one (by exact_mod_cast hb)]
  exact_mod_cast hnb

/-- With 100 samples and batch size 25, one epoch of training preserves the
agreement invariant across two runs whose inputs and targets agree on rows
0..74: the three training batches read only those rows, and the validation
step never touches the weights. -/
theorem trainEpoch_agree (sqrtFn sigma : ℚ → ℚ) (opts : TrainOptions)
    (n1 n2 : ANN) (input1 target1 input2 target2 : AFArray)
    (hbs : opts.batchSize = 25) (h : netAgree n1 n2)
    (hi1 : input1.rows = 100) (hi2 : input2.rows = 100)
    (hic : input1.cols = input2.cols) (htc : target1.cols = target2.cols)
    (hiA : ∀ r, r < 75 → ∀ c, input1.entry r c = input2.entry r c)
    (htA : ∀ r, r < 75 → ∀ c, target1.entry r c = target2.entry r c) :
    netAgree (ANN.trainEpoch sqrtFn sigma n1 input1 target1 opts).1
      (ANN.trainEpoch sqrtFn sigma n2 input2 target2 opts).1 := by
  have hcount : trainBatchCount 100 25 = 3 := by
    unfold trainBatchCount trainNumBatches
    norm_num
    rfl
  have hslice : ∀ j : ℕ, j < 3 →
      afRowSlice input2 (j * 25) (j * 25 + 25 - 1) =
        afRowSlice input1 (j * 25) (j * 25 + 25 - 1) := by
    intro j hj
    apply afRowSlice_congr _ _ _ _ hic.symm
    intro r h1 h2 c
    exact (hiA r (by omega) c).symm
  have htslice : ∀ j : ℕ, j < 3 →
      afRowSlice target2 (j * 25) (j * 25 + 25 - 1) =
        afRowSlice target1 (j * 25) (j * 25 + 25 - 1) := by
    intro j hj
    apply afRowSlice_congr _ _ _ _ htc.symm
    intro r h1 h2 c
    exact (htA r (by omega) c).symm
  have hrange : List.range 3 = [0, 1, 2] := rfl
  simp only [ANN.trainEpoch, hi1, hi2, hbs, hcount, hrange, List.foldl]
  apply predict_agree
  rw [hslice 0 (by omega), hslice 1 (by omega), hslice 2 (by omega),
    htslice 0 (by omega), htslice 1 (by omega), htslice 2 (by omega)]
  exact batchStep_agree sigma opts.alpha _ _ _ _
    (batchStep_agree sigma opts.alpha _ _ _ _
      (batchStep_agree sigma opts.alpha _ _ _ _ h))

/- Concrete objects used by the witnesses. -/

/-- A concrete constant matrix. -/
def testMat (r c : ℕ) (v : ℚ) : AFArray := afMk r c (fun _ _ => v)

/-- A concrete three-layer network (layer sizes 1, 2, 1) with all-ones
weights and empty signal placeholders. -/
def testNet3 : ANN :=
  ⟨3, [emptyAF, emptyAF, emptyAF],
    [afMk 2 2 (fun _ _ => 1), afMk 3 1 (fun _ _ => 1)]⟩

/-- A concrete uniform draw function whose draws are all 1/2. -/
def halfRandu : ℕ → ℕ → AFArray := fun r c => afMk r c (fun _ _ => 1 / 2)

/-- Claim C10: for every tensor `T` of shape (b, n), `addBias(T)` returns a
new tensor of shape (b, n+1) whose column 0 is all ones and whose columns
1..n equal `T`.  The operation is pure: in this embedding `addBias` is a
function of `T` alone, building a fresh array, and `T` and the network state
are untouched. -/
theorem annC10 (T : AFArray) :
    (ANN.addBias T).rows = T.rows
    ∧ (ANN.addBias T).cols = T.cols + 1
    ∧ (∀ r, r < T.rows → (ANN.addBias T).entry r 0 = 1)
    ∧ ∀ r, r < T.rows → ∀ c, c < T.cols →
        (ANN.addBias T).entry r (c + 1) = T.entry r c := by
  refine ⟨rfl, by show 1 + T.cols = T.cols + 1; omega, ?_, ?_⟩
  · intro r hr
    show (if r < T.rows ∧ 0 < 1 + T.cols then
      if 0 < 1 then (if r < T.rows ∧ 0 < 1 then (1 : ℚ) else 0) else
        T.entry r (0 - 1) else 0) = 1
    rw [if_pos ⟨hr, by omega⟩, if_pos (by omega), if_pos ⟨hr, by omega⟩]
  · intro r hr c hc
    show (if r < T.rows ∧ c + 1 < 1 + T.cols then
      if c + 1 < 1 then (if r < T.rows ∧ c + 1 < 1 then (1 : ℚ) else 0) else
        T.entry r (c + 1 - 1) else 0) = T.entry r c
    rw [if_pos ⟨hr, by omega⟩, if_neg (by omega), Nat.add_sub_cancel]

/-- Claim C5: for equal-shaped tensors, the error metric returns the square
root of the sum of all squared element differences, divided by the element
count of `out` only after the root is taken (so it is not a true RMS, where
the mean would be taken before the root). -/
theorem annC5 (sqrtFn : ℚ → ℚ) (out pred : AFArray)
    (hr : out.rows = pred.rows) (hc : out.cols = pred.cols) :
    ANN.calculateError sqrtFn out pred =
      sqrtFn (∑ i ∈ Finset.range out.rows, ∑ j ∈ Finset.range out.cols,
        (out.entry i j - pred.entry i j) ^ 2) / ((out.elements : ℚ)) := by
  have hsum : afSum (afMulEW (afSub out pred) (afSub out pred)) =
      ∑ i ∈ Finset.range out.rows, ∑ j ∈ Finset.range out.cols,
        (out.entry i j - pred.entry i j) ^ 2 := by
    unfold afSum afMulEW afSub afMk
    dsimp only
    apply Finset.sum_congr rfl
    intro i hi
    apply Finset.sum_congr rfl
    intro j hj
    rw [if_pos ⟨Finset.mem_range.mp hi, Finset.mem_range.mp hj⟩,
      if_pos ⟨Finset.mem_range.mp hi, Finset.mem_range.mp hj⟩, pow_two]
  show sqrtFn (afSum (afMulEW (afSub out pred) (afSub out pred))) /
      ((afMulEW (afSub out pred) (afSub out pred)).elements : ℚ) = _
  rw [hsum]
  rfl

/-- Claim C6 counterexample: the claim says construction with fewer than 2
layer sizes fails; but the constructor performs no validation, and on the
one-entry sequence checked here it succeeds, returning a degenerate network
object with one signal placeholder and no weight matrices. -/
theorem annC6_counterexample :
    (ANN.construct (fun _ _ => emptyAF) [5] none).numLayers = 1
    ∧ (ANN.construct (fun _ _ => emptyAF) [5] none).signal.length = 1
    ∧ (ANN.construct (fun _ _ => emptyAF) [5] none).weights = [] :=
  ⟨rfl, rfl, rfl⟩

/-- Claim C6 amended: for every layer-size sequence with fewer than 2
entries, construction does not fail; it returns a network holding one signal
placeholder per entry and an empty weight list. -/
theorem annC6 (randu : ℕ → ℕ → AFArray) (layers : List ℕ)
    (rangeOpt : Option ℚ) (h : layers.length < 2) :
    (ANN.construct randu layers rangeOpt).numLayers = layers.length
    ∧ (ANN.construct randu layers rangeOpt).signal.length = layers.length
    ∧ (ANN.construct randu layers rangeOpt).weights = [] := by
  have h0 : layers.length - 1 = 0 := by omega
  refine ⟨rfl, by simp [ANN.construct], ?_⟩
  simp [ANN.construct, h0]

theorem annC6_witness :
    ([5] : List ℕ).length < 2
    ∧ (ANN.construct (fun _ _ => halfRandu 1 1) [5] none).weights = [] :=
  ⟨by decide, (annC6 (fun _ _ => halfRandu 1 1) [5] none (by decide)).2.2⟩

/-- Claim C9: immediately after construction with a layer-size sequence of
length L at least 2 and a nonnegative effective initialization range, the
network holds exactly L signal placeholders and L-1 weight matrices,
`weights[i]` has `layers[i] + 1` rows and `layers[i + 1]` columns, and, given
that the backend's uniform draws lie in the unit interval, every weight entry
lies within plus or minus half the range. -/
theorem annC9 (randu : ℕ → ℕ → AFArray) (layers : List ℕ)
    (rangeOpt : Option ℚ) (hL : 2 ≤ layers.length)
    (hrange : 0 ≤ ANN.effectiveRange rangeOpt)
    (hrandu : ∀ r c : ℕ, (randu r c).rows = r ∧ (randu r c).cols = c ∧
      ∀ i j : ℕ, i < r → j < c →
        0 ≤ (randu r c).entry i j ∧ (randu r c).entry i j ≤ 1) :
    (ANN.construct randu layers rangeOpt).signal.length = layers.length
    ∧ (ANN.construct randu layers rangeOpt).weights.length =
        layers.length - 1
    ∧ ∀ i, i < layers.length - 1 →
        ((ANN.construct randu layers rangeOpt).weights.getD i emptyAF).rows =
          layers.getD i 0 + 1
        ∧ ((ANN.construct randu layers rangeOpt).weights.getD i
            emptyAF).cols = layers.getD (i + 1) 0
        ∧ ∀ r c, r < layers.getD i 0 + 1 → c < layers.getD (i + 1) 0 →
            -(ANN.effectiveRange rangeOpt / 2) ≤
              ((ANN.construct randu layers rangeOpt).weights.getD i
                emptyAF).entry r c
            ∧ ((ANN.construct randu layers rangeOpt).weights.getD i
                emptyAF).entry r c ≤ ANN.effectiveRange rangeOpt / 2 := by
  refine ⟨by simp [ANN.construct], by simp [ANN.construct], ?_⟩
  intro i hi
  obtain ⟨hrr, hrc, hre⟩ :=
    hrandu (layers.getD i 0 + 1) (layers.getD (i + 1) 0)
  have hget : (ANN.construct randu layers rangeOpt).weights.getD i emptyAF =
      afSubS (afMulS (randu (layers.getD i 0 + 1) (layers.getD (i + 1) 0))
        (ANN.effectiveRange rangeOpt)) (ANN.effectiveRange rangeOpt / 2) := by
    simp only [ANN.construct]
    rw [List.getD_eq_getElem _ _ (by simp [hi]), List.getElem_map,
      List.getElem_range]
  rw [hget]
  refine ⟨by simpa [afSubS, afMulS, afMk] using hrr,
    by simpa [afSubS, afMulS, afMk] using hrc, ?_⟩
  intro r c hr hc
  obtain ⟨h0, h1⟩ := hre r c hr hc
  have hmul0 : 0 ≤ (randu (layers.getD i 0 + 1) (layers.getD (i + 1) 0)).entry
      r c * ANN.effectiveRange rangeOpt := mul_nonneg h0 hrange
  have hmul1 : (randu (layers.getD i 0 + 1) (layers.getD (i + 1) 0)).entry
      r c * ANN.effectiveRange rangeOpt ≤ ANN.effectiveRange rangeOpt :=
    mul_le_of_le_one_left hrange h1
  have hrA : r < (afMulS (randu (layers.getD i 0 + 1)
      (layers.getD (i + 1) 0)) (ANN.effectiveRange rangeOpt)).rows := by
    show r < (randu (layers.getD i 0 + 1) (layers.getD (i + 1) 0)).rows
    rw [hrr]
    exact hr
  have hcA : c < (afMulS (randu (layers.getD i 0 + 1)
      (layers.getD (i + 1) 0)) (ANN.effectiveRange rangeOpt)).cols := by
    show c < (randu (layers.getD i 0 + 1) (layers.getD (i + 1) 0)).cols
    rw [hrc]
    exact hc
  have hrB : r < (randu (layers.getD i 0 + 1) (layers.getD (i + 1) 0)).rows
    := by rw [hrr]; exact hr
  have hcB : c < (randu (layers.getD i 0 + 1) (layers.getD (i + 1) 0)).cols
    := by rw [hrc]; exact hc
  have hentry : (afSubS (afMulS (randu (layers.getD i 0 + 1)
      (layers.getD (i + 1) 0)) (ANN.effectiveRange rangeOpt))
      (ANN.effectiveRange rangeOpt / 2)).entry r c =
      (randu (layers.getD i 0 + 1) (layers.getD (i + 1) 0)).entry r c *
        ANN.effectiveRange rangeOpt - ANN.effectiveRange rangeOpt / 2 := by
    show (if r < (afMulS (randu (layers.getD i 0 + 1) (layers.getD (i + 1) 0))
        (ANN.effectiveRange rangeOpt)).rows ∧
        c < (afMulS (randu (layers.getD i 0 + 1) (layers.getD (i + 1) 0))
          (ANN.effectiveRange rangeOpt)).cols then
        (afMulS (randu (layers.getD i 0 + 1) (layers.getD (i + 1) 0))
          (ANN.effectiveRange rangeOpt)).entry r c -
          ANN.effectiveRange rangeOpt / 2 else 0) = _
    rw [if_pos ⟨hrA, hcA⟩]
    show (if r < (randu (layers.getD i 0 + 1) (layers.getD (i + 1) 0)).rows ∧
        c < (randu (layers.getD i 0 + 1) (layers.getD (i + 1) 0)).cols then
        (randu (layers.getD i 0 + 1) (layers.getD (i + 1) 0)).entry r c *
          ANN.effectiveRange rangeOpt else 0) -
        ANN.effectiveRange rangeOpt / 2 = _
    rw [if_pos ⟨hrB, hcB⟩]
  rw [hentry]
  constructor
  · linarith
  · linarith

theorem annC9_witness :
    (2 ≤ ([2, 3] : List ℕ).length ∧ 0 ≤ ANN.effectiveRange none)
    ∧ (ANN.construct halfRandu [2, 3] none).weights.length =
        ([2, 3] : List ℕ).length - 1 :=
  ⟨⟨by decide, by norm_num [ANN.effectiveRange]⟩,
    (annC9 halfRandu [2, 3] none (by decide)
      (by norm_num [ANN.effectiveRange])
      (fun r c => ⟨rfl, rfl, fun i j hi hj => by
        constructor <;> simp [halfRandu, afMk, hi, hj] <;> norm_num⟩)).2.1⟩

theorem annC5_witness :
    ((testMat 2 1 1).rows = (testMat 2 1 0).rows
      ∧ (testMat 2 1 1).cols = (testMat 2 1 0).cols)
    ∧ ANN.calculateError (fun q => q) (testMat 2 1 1) (testMat 2 1 0) =
      (fun q => q) (∑ i ∈ Finset.range (testMat 2 1 1).rows,
        ∑ j ∈ Finset.range (testMat 2 1 1).cols,
          ((testMat 2 1 1).entry i j - (testMat 2 1 0).entry i j) ^ 2) /
        (((testMat 2 1 1).elements : ℚ)) :=
  ⟨⟨rfl, rfl⟩, annC5 (fun q => q) (testMat 2 1 1) (testMat 2 1 0) rfl rfl⟩

/-- Claim C7 counterexample: the claim asserts that for every run with
`batchSize ≥ numSamples` the validation batch covers the whole input, rows
`0..numSamples-1`.  Covering the whole input means the computed start row
`(numBatches - 1) * batchSize` is 0 (the end row is always
`numSamples - 1`).  With `numSamples = 4`, `batchSize = 6` the source
computes start row -2, not 0, so the validation slice does not start at row
0; its interpretation is left to the backend's handling of negative
indices. -/
theorem annC7_counterexample :
    trainBatchCount 4 6 = 0
    ∧ trainValStart 4 6 = -2
    ∧ trainValStart 4 6 ≠ 0 := by
  refine ⟨trainBatchCount_zero 4 6 (by omega) (by omega), ?_, ?_⟩
  · unfold trainValStart trainNumBatches
    norm_num
  · unfold trainValStart trainNumBatches
    norm_num

/-- Claim C7 amended: for every run with `batchSize ≥ numSamples` (and a
positive batch size) the training-batch loop performs zero iterations per
epoch, so an epoch leaves the weights unchanged (the validation prediction
only rewrites signal buffers) and the core raises no error; the validation
slice ends at row `numSamples - 1` and starts at the possibly negative row
`numSamples - batchSize`, which is 0 — whole-input coverage — exactly when
`batchSize = numSamples`. -/
theorem annC7 (n b : ℕ) (hb : 0 < b) (hnb : n ≤ b) :
    trainBatchCount n b = 0
    ∧ trainValStart n b = (n : ℚ) - (b : ℚ)
    ∧ (b = n → trainValStart n b = 0)
    ∧ ∀ (sqrtFn sigma : ℚ → ℚ) (net : ANN) (input target : AFArray)
        (opts : TrainOptions), opts.batchSize = b → input.rows = n →
        (ANN.trainEpoch sqrtFn sigma net input target opts).1.weights =
          net.weights := by
  have h0 := trainBatchCount_zero n b hb hnb
  refine ⟨h0, trainValStart_eq n b hb, ?_, ?_⟩
  · intro hbn
    rw [trainValStart_eq n b hb, hbn, sub_self]
  · intro sqrtFn sigma net input target opts hbs hrows
    simp only [ANN.trainEpoch, hbs, hrows, h0, List.range_zero,
      List.foldl_nil]
    simp only [ANN.predict, fp_weights]

theorem annC7_witness :
    ((0 : ℕ) < 8 ∧ (4 : ℕ) ≤ 8)
    ∧ (ANN.trainEpoch (fun q => q) (fun q => q) testNet3 (testMat 4 1 0)
        (testMat 4 1 0) ⟨8, 1, 1, 0⟩).1.weights = testNet3.weights :=
  ⟨by decide, (annC7 4 8 (by decide) (by decide)).2.2.2 (fun q => q)
    (fun q => q) testNet3 (testMat 4 1 0) (testMat 4 1 0) ⟨8, 1, 1, 0⟩ rfl
    rfl⟩

/-- Claim C8: `numBatches` is the exact, possibly fractional, rational
quotient; the batch loop runs for exactly the integers `j` with
`j < numBatches - 1`; the validation slice always starts at row
`numSamples - batchSize` (and ends at `numSamples - 1`); consequently, when
`batchSize` does not divide `numSamples` and `numSamples > batchSize`, some
validation row also lies in a training batch of the same epoch — row
`numSamples - batchSize` itself lies in training batch
`numSamples / batchSize - 1` (integer division). -/
theorem annC8 (n b : ℕ) (hb : 0 < b) (hbn : b < n) (hnd : ¬ b ∣ n) :
    trainNumBatches n b = (n : ℚ) / (b : ℚ)
    ∧ (∀ j : ℕ, j < trainBatchCount n b ↔
        (j : ℚ) < trainNumBatches n b - 1)
    ∧ trainValStart n b = ((n - b : ℕ) : ℚ)
    ∧ ∃ r : ℕ, (n - b ≤ r ∧ r ≤ n - 1)
        ∧ ∃ j : ℕ, j < trainBatchCount n b ∧ j * b ≤ r
            ∧ r ≤ j * b + b - 1 := by
  have hmod : n % b < b := Nat.mod_lt _ hb
  have hmod0 : n % b ≠ 0 := fun h => hnd (Nat.dvd_of_mod_eq_zero h)
  have hX : n % b + b * (n / b) = n := Nat.mod_add_div n b
  have hT1 : 1 ≤ n / b := (Nat.one_le_div_iff hb).mpr (le_of_lt hbn)
  have hTb : (n / b) * b = b * (n / b) := Nat.mul_comm _ _
  have hTlt : (n / b) * b < n := by omega
  refine ⟨rfl, fun j => trainBatchCount_iff n b j, ?_, ?_⟩
  · rw [trainValStart_eq n b hb, Nat.cast_sub (le_of_lt hbn)]
  · refine ⟨n - b, ⟨le_refl _, by omega⟩, n / b - 1, ?_, ?_, ?_⟩
    · rw [trainBatchCount_iff]
      unfold trainNumBatches
      rw [Nat.cast_sub hT1]
      push_cast
      rw [sub_lt_sub_iff_right, lt_div_iff (by exact_mod_cast hb)]
      exact_mod_cast hTlt
    · have e1 : (n / b - 1) * b = (n / b) * b - b := by
        rw [Nat.sub_mul, one_mul]
      omega
    · have e1 : (n / b - 1) * b = (n / b) * b - b := by
        rw [Nat.sub_mul, one_mul]
      have e2 : b ≤ (n / b) * b := Nat.le_mul_of_pos_left b hT1
      omega

theorem annC8_witness :
    ((0 : ℕ) < 2 ∧ (2 : ℕ) < 5 ∧ ¬ (2 : ℕ) ∣ 5)
    ∧ trainValStart 5 2 = ((5 - 2 : ℕ) : ℚ) :=
  ⟨by decide, (annC8 5 2 (by decide) (by decide) (by decide)).2.2.1⟩

/-- A concrete dataset that differs from the zero matrix only on rows
75..99. -/
def testValMat : AFArray := afMk 100 1 (fun r _ => if 75 ≤ r then 5 else 0)

/-- Claim C3: `forwardPropagate(input)` binds `signal[0]` to the input and
then, for each i from 0 to L-2 in increasing order, sets
`signal[i + 1] = sigmoid(matMul(addBias(signal[i]), weights[i]))`; on return
every `signal[i]` with `i < L` — `signal[L - 1]`, the network's output for
the batch, in particular — holds the value `fpSpec i` of the spec
recurrence.  The weights are untouched. -/
theorem annC3 (sigma : ℚ → ℚ) (net : ANN) (input : AFArray)
    (hlen : net.signal.length = net.numLayers) (hL : 1 ≤ net.numLayers) :
    (ANN.forwardPropagate sigma net input).weights = net.weights
    ∧ (ANN.forwardPropagate sigma net input).signal.getD 0 emptyAF = input
    ∧ (∀ i, i < net.numLayers →
        (ANN.forwardPropagate sigma net input).signal.getD i emptyAF =
          fpSpec sigma net.weights input i)
    ∧ ∀ i, i + 1 < net.numLayers →
        (ANN.forwardPropagate sigma net input).signal.getD (i + 1) emptyAF =
          afSigmoid sigma (afMatMul
            (ANN.addBias ((ANN.forwardPropagate sigma net
              input).signal.getD i emptyAF))
            (net.weights.getD i emptyAF)) := by
  have hfp := fp_signal_getD sigma net input hlen hL
  refine ⟨rfl, ?_, hfp, ?_⟩
  · rw [hfp 0 (by omega)]
    rfl
  · intro i hi
    rw [hfp (i + 1) (by omega), hfp i (by omega)]
    rfl

theorem annC3_witness :
    (testNet3.signal.length = testNet3.numLayers ∧ 1 ≤ testNet3.numLayers)
    ∧ (ANN.forwardPropagate (fun q => q) testNet3
        (testMat 1 1 0)).signal.getD 0 emptyAF = testMat 1 1 0 :=
  ⟨⟨rfl, by decide⟩,
    (annC3 (fun q => q) testNet3 (testMat 1 1 0) rfl (by decide)).2.1⟩

/-- Claim C1: `backPropagate(target, alpha)` updates each weight matrix
`weights[i]`, for i from L-2 down to 0, in place by adding
`transpose(matMul(delta, addBias(signal[i])) * alpha * -1 / m)`, where
`delta = transpose(deriv(outVec) * err)`, `deriv(out) = (1 - out) * out`
(unfolded below as `afMulEW (afRhsSub out 1) out` inside `ANN.deriv`),
`outVec = signal[i + 1]` is the output activation of the layer being updated,
`err = bpErrSpec (L - 2 - i)` is the error propagated to that layer, and `m`
is the row count of `target`.  No other operation modifies any weight: the
weight list keeps its length, every entry below L-1 is exactly the old value
plus this one gradient, and the signal buffers are untouched. -/
theorem annC1 (net : ANN) (target : AFArray) (alpha : ℚ)
    (hw : net.weights.length = net.numLayers - 1) :
    (ANN.backPropagate net target alpha).weights.length = net.numLayers - 1
    ∧ (ANN.backPropagate net target alpha).signal = net.signal
    ∧ ∀ i, i < net.numLayers - 1 →
        (ANN.backPropagate net target alpha).weights.getD i emptyAF =
          afAdd (net.weights.getD i emptyAF)
            (afTranspose (afDivS (afNeg (afMulS (afMatMul
              (afTranspose (afMulEW
                (ANN.deriv (net.signal.getD (i + 1) emptyAF))
                (bpErrSpec net.numLayers
                  (fun k => net.signal.getD k emptyAF) net.weights target
                  alpha ((target.rows : ℚ)) (net.numLayers - 2 - i))))
              (ANN.addBias (net.signal.getD i emptyAF))) alpha))
              ((target.rows : ℚ)))) := by
  obtain ⟨hlen, hchar⟩ := backPropagate_spec net target alpha hw
  refine ⟨hlen, rfl, ?_⟩
  intro i hi
  rw [hchar i hi]
  unfold bpGradSpec bpDeltaSpec
  have e1 : net.numLayers - 1 - (net.numLayers - 2 - i) = i + 1 := by omega
  have e2 : net.numLayers - 2 - (net.numLayers - 2 - i) = i := by omega
  rw [e1, e2]

theorem annC1_witness :
    testNet3.weights.length = testNet3.numLayers - 1
    ∧ (ANN.backPropagate testNet3 (testMat 1 1 1) 1).weights.getD 0 emptyAF =
      afAdd (testNet3.weights.getD 0 emptyAF)
        (afTranspose (afDivS (afNeg (afMulS (afMatMul
          (afTranspose (afMulEW
            (ANN.deriv (testNet3.signal.getD (0 + 1) emptyAF))
            (bpErrSpec testNet3.numLayers
              (fun k => testNet3.signal.getD k emptyAF) testNet3.weights
              (testMat 1 1 1) 1 (((testMat 1 1 1).rows : ℚ))
              (testNet3.numLayers - 2 - 0))))
          (ANN.addBias (testNet3.signal.getD 0 emptyAF))) 1))
          (((testMat 1 1 1).rows : ℚ)))) :=
  ⟨rfl, (annC1 testNet3 (testMat 1 1 1) 1 rfl).2.2 0 (by decide)⟩

/-- Claim C2: in the iteration of `backPropagate`'s layer loop that handles
layer index i (for i from L-2 down to 1), the error propagated to the
earlier layer — the `err` component of the loop state after that iteration,
consumed by iteration i-1 — is computed as
`matMul(delta, transpose(weights[i]))` (the spec's `matMulTT` contract)
using the value of `weights[i]` AFTER the in-place gradient update of the
same iteration (the weight read back from the updated list equals the old
weight plus the transposed gradient), and then column 0 is dropped, keeping
columns 1 through `signal[i].cols` inclusive, so the propagated error has
the same column count as `signal[i]`. -/
theorem annC2 (net : ANN) (target : AFArray) (alpha : ℚ)
    (hw : net.weights.length = net.numLayers - 1) :
    ∀ i, 1 ≤ i → i + 2 ≤ net.numLayers →
      ((ANN.bpLoop net.numLayers (fun k => net.signal.getD k emptyAF)
          net.weights target alpha ((target.rows : ℚ))
          (net.numLayers - 1 - i)).2.2.getD i emptyAF =
        afAdd (net.weights.getD i emptyAF)
          (afTranspose (bpGradSpec net.numLayers
            (fun k => net.signal.getD k emptyAF) net.weights target alpha
            ((target.rows : ℚ)) (net.numLayers - 2 - i))))
      ∧ ((ANN.bpLoop net.numLayers (fun k => net.signal.getD k emptyAF)
          net.weights target alpha ((target.rows : ℚ))
          (net.numLayers - 1 - i)).2.1 =
        afColSlice (afMatMul
          (bpDeltaSpec net.numLayers (fun k => net.signal.getD k emptyAF)
            net.weights target alpha ((target.rows : ℚ))
            (net.numLayers - 2 - i))
          (afTranspose ((ANN.bpLoop net.numLayers
            (fun k => net.signal.getD k emptyAF) net.weights target alpha
            ((target.rows : ℚ)) (net.numLayers - 1 - i)).2.2.getD i
            emptyAF)))
          1 ((net.signal.getD i emptyAF).cols))
      ∧ ((ANN.bpLoop net.numLayers (fun k => net.signal.getD k emptyAF)
          net.weights target alpha ((target.rows : ℚ))
          (net.numLayers - 1 - i)).2.1).cols =
        (net.signal.getD i emptyAF).cols := by
  intro i h1 h2
  obtain ⟨-, hE, -, hW⟩ := bpLoop_spec net.numLayers
    (fun k => net.signal.getD k emptyAF) net.weights target alpha
    ((target.rows : ℚ)) hw (net.numLayers - 1 - i) (by omega)
  have hWi := hW i
  rw [if_pos (by omega)] at hWi
  have hsucc : net.numLayers - 1 - i = (net.numLayers - 2 - i) + 1 := by
    omega
  have e2 : net.numLayers - 2 - (net.numLayers - 2 - i) = i := by omega
  refine ⟨hWi, ?_, ?_⟩
  · rw [hWi, hE, hsucc, bpErrSpec_succ, e2]
    rfl
  · rw [hE, hsucc, bpErrSpec_succ, e2]
    show (net.signal.getD i emptyAF).cols + 1 - 1 =
      (net.signal.getD i emptyAF).cols
    omega

theorem annC2_witness :
    testNet3.weights.length = testNet3.numLayers - 1
    ∧ ((ANN.bpLoop testNet3.numLayers
        (fun k => testNet3.signal.getD k emptyAF) testNet3.weights
        (testMat 1 1 1) 1 (((testMat 1 1 1).rows : ℚ))
        (testNet3.numLayers - 1 - 1)).2.1).cols =
      (testNet3.signal.getD 1 emptyAF).cols :=
  ⟨rfl, ((annC2 testNet3 (testMat 1 1 1) 1 rfl) 1 (by decide)
    (by decide)).2.2⟩

/-- Claim C4: with 100 samples and batch size 25 each epoch runs exactly 3
training batches (j = 0, 1, 2, over rows 0..74) and the validation slice
starts at row 75; rows 75..99 never cause weight updates.  The verification
stated by the claim holds in the strong form proved here: for ANY two
input/target pairs that agree on rows 0..74 (in particular, pairs differing
only by a permutation of rows 75..99), iterating the epoch body any number
of times from the same initial network yields identical weight lists. -/
theorem annC4 :
    trainBatchCount 100 25 = 3
    ∧ trainValStart 100 25 = 75
    ∧ ∀ (sqrtFn sigma : ℚ → ℚ) (opts : TrainOptions) (net : ANN)
        (input1 target1 input2 target2 : AFArray) (k : ℕ),
        opts.batchSize = 25 → net.signal.length = net.numLayers →
        1 ≤ net.numLayers → input1.rows = 100 → input2.rows = 100 →
        input1.cols = input2.cols → target1.cols = target2.cols →
        (∀ r, r < 75 → ∀ c, input1.entry r c = input2.entry r c) →
        (∀ r, r < 75 → ∀ c, target1.entry r c = target2.entry r c) →
        ((fun net1 =>
            (ANN.trainEpoch sqrtFn sigma net1 input1 target1 opts).1)^[k]
          net).weights =
        ((fun net2 =>
            (ANN.trainEpoch sqrtFn sigma net2 input2 target2 opts).1)^[k]
          net).weights := by
  refine ⟨?_, ?_, ?_⟩
  · unfold trainBatchCount trainNumBatches
    norm_num
    rfl
  · unfold trainValStart trainNumBatches
    norm_num
  · intro sqrtFn sigma opts net input1 target1 input2 target2 k hbs hwf h1
      hi1 hi2 hic htc hiA htA
    have hag : ∀ k' : ℕ, netAgree
        ((fun net1 =>
          (ANN.trainEpoch sqrtFn sigma net1 input1 target1 opts).1)^[k'] net)
        ((fun net2 =>
          (ANN.trainEpoch sqrtFn sigma net2 input2 target2 opts).1)^[k']
          net) := by
      intro k'
      induction k' with
      | zero => exact ⟨rfl, rfl, hwf, hwf, h1⟩
      | succ k' ih =>
        rw [Function.iterate_succ_apply', Function.iterate_succ_apply']
        exact trainEpoch_agree sqrtFn sigma opts _ _ input1 target1 input2
          target2 hbs ih hi1 hi2 hic htc hiA htA
    exact (hag k).1

theorem annC4_witness :
    ((⟨25, 1, 1, 0⟩ : TrainOptions).batchSize = 25
      ∧ testNet3.signal.length = testNet3.numLayers
      ∧ (testMat 100 1 0).rows = 100 ∧ testValMat.rows = 100)
    ∧ ((fun net1 => (ANN.trainEpoch (fun q => q) (fun q => q) net1
          (testMat 100 1 0) (testMat 100 1 0) ⟨25, 1, 1, 0⟩).1)^[2]
        testNet3).weights =
      ((fun net2 => (ANN.trainEpoch (fun q => q) (fun q => q) net2
          testValMat testValMat ⟨25, 1, 1, 0⟩).1)^[2] testNet3).weights := by
  have hagree : ∀ r, r < 75 → ∀ c,
      (testMat 100 1 0).entry r c = testValMat.entry r c := by
    intro r hr c
    show (if r < 100 ∧ c < 1 then (0 : ℚ) else 0) =
      (if r < 100 ∧ c < 1 then (if 75 ≤ r then (5 : ℚ) else 0) else 0)
    by_cases h : r < 100 ∧ c < 1
    · rw [if_pos h, if_pos h, if_neg (by omega)]
    · rw [if_neg h, if_neg h]
  exact ⟨⟨rfl, rfl, rfl, rfl⟩, annC4.2.2 (fun q => q) (fun q => q)
    ⟨25, 1, 1, 0⟩ testNet3 (testMat 100 1 0) (testMat 100 1 0) testValMat
    testValMat 2 rfl rfl (by decide) rfl rfl rfl rfl hagree hagree⟩
